import Mathlib

/-!
Shallow embedding of DarkArch0n/MTGProxyPrinter (src/mtg_proxy.py and
src/mtg_proxy_gui.py) and proofs about its parsing, resolution, caching,
image-normalisation and page-layout logic.

Modelling conventions:
* Python strings are modelled as `List Char` (wrapped in `String` at API
  boundaries); the Unicode character classes of Python's `re` module
  (`\d`, `\s`, `\w`-style classes) and `str.lower`/`str.strip` are modelled
  on their ASCII fragment, which covers every character the program's own
  formats use.
* Python `float` arithmetic inside `resize_card_image` is modelled by exact
  integer/rational arithmetic (`int(x)` on a nonnegative value is `Nat`
  floor division); ratio comparisons are cross-multiplied, which is exact
  for positive denominators.
* Fallible network calls are modelled as `Option`-valued oracles passed in
  as parameters; the on-disk image cache is an association list from file
  names to (decoded) image bytes.
-/

namespace MTGProxy

/-- Python whitespace (the ASCII fragment of `str.strip` / regex `\s`). -/
def isSpacePy (c : Char) : Bool :=
  c = ' ' || c = '\t' || c = '\n' || c = '\r' || c = '\x0b' || c = '\x0c'

/-- Python regex `\d` (ASCII fragment). -/
def isDigitPy (c : Char) : Bool := '0' ≤ c && c ≤ '9'

/-- Python regex `.` (any character except a newline). -/
def isDotPy (c : Char) : Bool := !(c = '\n')

/-- Python regex `\S` (ASCII fragment of the complement of `\s`). -/
def isNonSpacePy (c : Char) : Bool := !(isSpacePy c)

/-- The class `[A-Za-z0-9]` from the Moxfield set-code group. -/
def isAlnumAscii (c : Char) : Bool :=
  isDigitPy c || ('a' ≤ c && c ≤ 'z') || ('A' ≤ c && c ≤ 'Z')

/-- The class `[A-Z]` under `re.IGNORECASE` (so: any ASCII letter),
from the foil-marker group. -/
def isAlphaAscii (c : Char) : Bool :=
  ('a' ≤ c && c ≤ 'z') || ('A' ≤ c && c ≤ 'Z')

/-- The literal `x` under `re.IGNORECASE`. -/
def isXx (c : Char) : Bool := c = 'x' || c = 'X'

/-- `str.strip()`: drop whitespace from both ends. -/
def pyStrip (l : List Char) : List Char :=
  ((l.dropWhile isSpacePy).reverse.dropWhile isSpacePy).reverse

/-- `str.lower()` (ASCII fragment). -/
def pyLower (l : List Char) : List Char := l.map Char.toLower

/-- `str.rstrip(':')`. -/
def rstripColon (l : List Char) : List Char :=
  (l.reverse.dropWhile (fun c => c = ':')).reverse

/-- `int(...)` on a string of decimal digits. -/
def natOfDigits (l : List Char) : Nat :=
  l.foldl (fun a c => 10 * a + (c.toNat - '0'.toNat)) 0

/-!
### A backtracking regex matcher

Both `parse_card_entry` functions match with `re.match` and patterns whose
quantified subexpressions are all single-character classes.  The matcher
below implements Python `re` backtracking semantics for exactly the
constructs those two patterns use: sequencing, capture groups, greedy `+`
over a class (longest first), lazy `+?` over a class (shortest first),
greedy `*` over a class, greedy `?`, and the `$` anchor (which matches at
the end of the string or just before one final newline).  `re.match`
anchors at the start but not at the end, so a match may leave a suffix
unconsumed.
-/

inductive RE where
  | eps
  | cls (p : Char → Bool)
  | seq (a b : RE)
  | grp (n : Nat) (a : RE)
  | plusG (p : Char → Bool)
  | plusL (p : Char → Bool)
  | starG (p : Char → Bool)
  | opt (a : RE)
  | dollar
deriving Inhabited

/-- Try `f n, f (n-1), ..., f 1` in that order (greedy quantifier). -/
def tryDesc (f : Nat → Option α) : Nat → Option α
  | 0 => none
  | n + 1 => (f (n + 1)).orElse fun _ => tryDesc f n

/-- Try `f i, f (i+1), ...` for `fuel` steps (lazy quantifier). -/
def tryAsc (f : Nat → Option α) : Nat → Nat → Option α
  | _, 0 => none
  | i, fuel + 1 => (f i).orElse fun _ => tryAsc f (i + 1) fuel

/-- Captured groups: group number paired with captured characters. -/
abbrev Groups := List (Nat × List Char)

/-- Continuation-passing backtracking matcher.  `k` receives the remaining
input and the groups captured so far; alternatives are tried in Python's
order (greedy longest-first, lazy shortest-first, optional present-first). -/
def RE.run : RE → List Char → Groups → (List Char → Groups → Option Groups) → Option Groups
  | .eps, s, g, k => k s g
  | .cls p, s, g, k =>
      match s with
      | [] => none
      | c :: t => if p c then k t g else none
  | .seq a b, s, g, k => a.run s g (fun s2 g2 => b.run s2 g2 k)
  | .grp n a, s, g, k =>
      a.run s g (fun s2 g2 => k s2 ((n, s.take (s.length - s2.length)) :: g2))
  | .plusG p, s, g, k => tryDesc (fun i => k (s.drop i) g) (s.takeWhile p).length
  | .plusL p, s, g, k => tryAsc (fun i => k (s.drop i) g) 1 (s.takeWhile p).length
  | .starG p, s, g, k =>
      (tryDesc (fun i => k (s.drop i) g) (s.takeWhile p).length).orElse fun _ => k s g
  | .opt a, s, g, k => (a.run s g k).orElse fun _ => k s g
  | .dollar, s, g, k => if s = [] ∨ s = ['\n'] then k s g else none

/-- `re.match(pattern, s)`: the captured groups of the first match, if any. -/
def runMatch (re : RE) (s : List Char) : Option Groups :=
  re.run s [] (fun _ g => some g)

/-- The contents of capture group `n` (empty if absent). -/
def groupChars (g : Groups) (n : Nat) : List Char :=
  (g.lookup n).getD []

/-- The shared prefix `^(\d+)x?\s+` of both card-entry patterns
(`x` case-insensitive). -/
def qtyPrefixRE (rest : RE) : RE :=
  .seq (.grp 1 (.plusG isDigitPy))
    (.seq (.opt (.cls isXx)) (.seq (.plusG isSpacePy) rest))

/-- `^(\d+)x?\s+(.+)$` with `re.IGNORECASE` (the "simple" format). -/
def simpleRE : RE :=
  qtyPrefixRE (.seq (.grp 2 (.plusG isDotPy)) .dollar)

/-- `(?:\s+\*[A-Z]+\*)?` — the optional foil/finish marker. -/
def foilRE : RE :=
  .seq (.plusG isSpacePy)
    (.seq (.cls (fun c => c = '*')) (.seq (.plusG isAlphaAscii) (.cls (fun c => c = '*'))))

/-- `^(\d+)x?\s+(.+?)\s+\(([A-Za-z0-9]+)\)\s+(\S+)(?:\s+\*[A-Z]+\*)?\s*$`
with `re.IGNORECASE` (the Moxfield format). -/
def moxRE : RE :=
  qtyPrefixRE
    (.seq (.grp 2 (.plusL isDotPy))
      (.seq (.plusG isSpacePy)
        (.seq (.cls (fun c => c = '('))
          (.seq (.grp 3 (.plusG isAlnumAscii))
            (.seq (.cls (fun c => c = ')'))
              (.seq (.plusG isSpacePy)
                (.seq (.grp 4 (.plusG isNonSpacePy))
                  (.seq (.opt foilRE) (.seq (.starG isSpacePy) .dollar)))))))))

/-!
### `parse_card_entry` — mtg_proxy.py (CLI)

```python
def parse_card_entry(entry):
    entry = entry.strip()
    if not entry or entry.startswith('#'):
        return None, 0
    match = re.match(r'^(\d+)x?\s+(.+)$', entry, re.IGNORECASE)
    if match:
        quantity = int(match.group(1)); name = match.group(2).strip()
    else:
        quantity = 1; name = entry
    return name, quantity
```
The `(None, 0)` skip result is modelled as `none`.
-/

def parse_card_entry (entry : String) : Option (String × Nat) :=
  let e := pyStrip entry.data
  if e = [] || e.head? = some '#' then none
  else
    match runMatch simpleRE e with
    | some g => some (⟨pyStrip (groupChars g 2)⟩, natOfDigits (groupChars g 1))
    | none => some (⟨e⟩, 1)

/-- `load_decklist` / the CLI argument loop keep an entry only
`if name:` (name non-None and non-empty). -/
def load_decklist_entries (lines : List String) : List (String × Nat) :=
  lines.filterMap fun l =>
    match parse_card_entry l with
    | some (n, q) => if n = "" then none else some (n, q)
    | none => none

end MTGProxy

namespace MTGProxyGui

open MTGProxy

/-- The Moxfield section headers skipped by the GUI parser. -/
def MOXFIELD_SECTIONS : List (List Char) :=
  ["deck".data, "sideboard".data, "commander".data, "companions".data,
   "maybeboard".data, "mainboard".data, "considering".data, "acquired".data]

/-!
### `parse_card_entry` — mtg_proxy_gui.py

Same as the CLI parser, except: section-header lines (case-insensitive,
optional trailing colons) are skipped, and the Moxfield printing-qualified
pattern is tried before the simple pattern.  Returns
`(name, quantity, set_code, collector_number)`.
-/

def parse_card_entry (entry : String) :
    Option (String × Nat × Option String × Option String) :=
  let e := pyStrip entry.data
  if e = [] || e.head? = some '#' then none
  else if rstripColon (pyLower e) ∈ MOXFIELD_SECTIONS then none
  else
    match runMatch moxRE e with
    | some g =>
        some (⟨pyStrip (groupChars g 2)⟩, natOfDigits (groupChars g 1),
          some ⟨pyLower (pyStrip (groupChars g 3))⟩, some ⟨pyStrip (groupChars g 4)⟩)
    | none =>
        match runMatch simpleRE e with
        | some g =>
            some (⟨pyStrip (groupChars g 2)⟩, natOfDigits (groupChars g 1), none, none)
        | none => some (⟨e⟩, 1, none, none)

/-- `MTGProxyGUI.parse_decklist`: split the text area into lines, parse each,
keep entries `if name:`. -/
def parse_decklist (lines : List String) :
    List (String × Nat × Option String × Option String) :=
  lines.filterMap fun l =>
    match parse_card_entry l with
    | some r => if r.1 = "" then none else some r
    | none => none

end MTGProxyGui

namespace MTGProxy

/-!
### Images, the image cache and `download_image`

A PIL image is modelled by its mode string and pixel dimensions; pixel
contents (and hence the LANCZOS resampling convolution) are abstract.  The
cache directory is an association list from file names to the downloaded
(already decoded) images; `open(path, 'wb')` truncates, so a write shadows
any previous entry for the same file name.
-/

structure PILImage where
  mode : String
  width : Nat
  height : Nat
deriving DecidableEq, Repr, Inhabited

abbrev ImageCache := List (String × PILImage)

/-- `sanitize_filename`: `re.sub(r'[<>:"/\\|?*]', '_', name.lower().replace(' ', '_'))`. -/
def isForbiddenFilenameChar (c : Char) : Bool :=
  c = '<' || c = '>' || c = ':' || c = '"' || c = '/' || c = '\\' ||
    c = '|' || c = '?' || c = '*'

def sanitize_filename (name : List Char) : List Char :=
  ((pyLower name).map fun c => if c = ' ' then '_' else c).map
    fun c => if isForbiddenFilenameChar c then '_' else c

/-- The cache file name used by the CLI `download_image`:
`sanitize_filename(card_name) + ".png"`. -/
def cacheFilename (card_name : String) : String :=
  ⟨sanitize_filename card_name.data⟩ ++ ".png"

/-- Result of `download_image`; `fetched` instruments whether the network
request (`requests.get`) was executed at all. -/
structure DownloadResult where
  path : Option String
  cache : ImageCache
  fetched : Bool
deriving DecidableEq, Repr

/-- `download_image` from mtg_proxy.py.  `fetch` is the byte-fetcher oracle
(`requests.get` + decode); `none` models any `RequestException` (including a
non-2xx status raised by `raise_if_status`): in that case nothing is written
to the cache and `None` is returned to the caller. -/
def download_image (url : String) (card_name : String) (use_cache : Bool)
    (fetch : String → Option PILImage) (cache : ImageCache) : DownloadResult :=
  let filename := cacheFilename card_name
  if use_cache && (cache.lookup filename).isSome then
    ⟨some filename, cache, false⟩
  else
    match fetch url with
    | some content => ⟨some filename, (filename, content) :: cache, true⟩
    | none => ⟨none, cache, true⟩

/-!
### `resize_card_image` (identical in both files)

Python's float arithmetic is modelled exactly by integer arithmetic:
`int(2.5 * dpi) = 5 * dpi / 2` and `int(3.5 * dpi) = 7 * dpi / 2` with `Nat`
floor division (`int` truncation equals floor on nonnegative values);
`img_ratio > target_ratio` i.e. `w / h > tw / th` is cross-multiplied to
`w * th > tw * h` (exact for positive `h`, `th`);
`int(new_height * img_ratio) = th * w / h` and
`int(new_width / img_ratio) = tw * h / w`.
`//` is Python floor division, i.e. `Int.fdiv`.  `Image.crop(box)` always
returns an image of exactly the size of the box (out-of-bounds regions are
padded), and `resize`/`crop` keep the mode.
-/

def resize_card_image (img : PILImage) (dpi : Nat) : PILImage :=
  let target_width := 5 * dpi / 2
  let target_height := 7 * dpi / 2
  -- composite RGBA/P sources onto an opaque white RGB background,
  -- convert any other non-RGB mode to RGB
  let img1 : PILImage :=
    if img.mode = "RGBA" || img.mode = "P" then
      { mode := "RGB", width := img.width, height := img.height }
    else if img.mode ≠ "RGB" then
      { mode := "RGB", width := img.width, height := img.height }
    else img
  -- scale preserving aspect ratio so the image covers the target box
  let nwnh : Nat × Nat :=
    if img1.width * target_height > target_width * img1.height then
      (target_height * img1.width / img1.height, target_height)
    else
      (target_width, target_width * img1.height / img1.width)
  let img2 : PILImage := { img1 with width := nwnh.1, height := nwnh.2 }
  -- center crop to the exact target dimensions
  let left : Int := Int.fdiv ((nwnh.1 : Int) - target_width) 2
  let top : Int := Int.fdiv ((nwnh.2 : Int) - target_height) 2
  { mode := img2.mode,
    width := ((left + target_width) - left).toNat,
    height := ((top + target_height) - top).toNat }

/-!
### `get_image_url`

Scryfall card records are modelled with the fields the two programs read:
`image_uris` (a dict of rendition name to URL, modelled as an association
list), `card_faces`, and the `name` / `set` / `collector_number` fields used
by the GUI fetch loop.
-/

structure CardFace where
  image_uris : Option (List (String × String))
deriving DecidableEq, Repr

structure CardData where
  name : Option String
  set : Option String
  collector_number : Option String
  image_uris : Option (List (String × String))
  card_faces : List CardFace
deriving DecidableEq, Repr

/-- The `for key in [...]: if key in uris: return uris[key]` loop. -/
def firstRendition (keys : List String) (d : List (String × String)) : Option String :=
  keys.findSome? fun k => d.lookup k

/-- `get_image_url` from mtg_proxy.py: precedence `png`, `large`, `normal`,
on the top-level `image_uris` first, else on the first face's. -/
def get_image_url (c : CardData) : Option String :=
  match (match c.image_uris with
         | some d => firstRendition ["png", "large", "normal"] d
         | none => none) with
  | some u => some u
  | none =>
      match c.card_faces with
      | f :: _ =>
          match f.image_uris with
          | some d => firstRendition ["png", "large", "normal"] d
          | none => none
      | [] => none

/-!
### `create_pdf` (identical in both files)

The grid is `CARDS_PER_ROW × CARDS_PER_COL = 3 × 3`.  The model records, for
every drawn card, its index in the input sequence and the
`(page, row, column)` cell it is drawn into, where the page index counts the
`showPage()` calls made before the draw; it also counts the `showPage()`
calls (the produced PDF has `showPage`-count + 1 pages, since `save()`
emits the page being built).
-/

def CARDS_PER_ROW : Nat := 3
def CARDS_PER_COL : Nat := 3

structure Placement where
  cardIndex : Nat
  page : Nat
  row : Nat
  col : Nat
deriving DecidableEq, Repr

/-- One iteration of the `while` body: the two nested `for` loops over rows
and columns, drawing while `card_index < total_cards`.  Returns the
placements drawn on this page and the updated `card_index`. -/
def pageStep (total page start : Nat) : List Placement × Nat :=
  (List.range CARDS_PER_COL).foldl
    (fun acc row =>
      (List.range CARDS_PER_ROW).foldl
        (fun acc2 col =>
          if acc2.2 < total then
            (acc2.1 ++ [⟨acc2.2, page, row, col⟩], acc2.2 + 1)
          else acc2)
        acc)
    ([], start)

/-- The cells of one page in the order the two nested `for` loops visit
them: row-major. -/
def pageSlots : List (Nat × Nat) :=
  [(0, 0), (0, 1), (0, 2), (1, 0), (1, 1), (1, 2), (2, 0), (2, 1), (2, 2)]

/-- The loop body for a single grid cell. -/
def slotStep (total page : Nat) (acc : List Placement × Nat) (rc : Nat × Nat) :
    List Placement × Nat :=
  if acc.2 < total then (acc.1 ++ [⟨acc.2, page, rc.1, rc.2⟩], acc.2 + 1) else acc

theorem pageStep_eq_slotFold (total page start : Nat) :
    pageStep total page start = pageSlots.foldl (slotStep total page) ([], start) := rfl

theorem slotFold_snd (total page : Nat) (slots : List (Nat × Nat)) :
    ∀ (ps : List Placement) (i : Nat), i ≤ total →
      (slots.foldl (slotStep total page) (ps, i)).2 = min (i + slots.length) total := by
  induction slots with
  | nil => intro ps i h; simp; omega
  | cons rc rest ih =>
      intro ps i h
      by_cases hi : i < total
      · rw [List.foldl_cons,
          show slotStep total page (ps, i) rc = (ps ++ [⟨i, page, rc.1, rc.2⟩], i + 1) from
            by simp [slotStep, hi],
          ih _ (i + 1) (by omega)]
        simp; omega
      · rw [List.foldl_cons,
          show slotStep total page (ps, i) rc = (ps, i) from by simp [slotStep, hi],
          ih ps i h]
        simp; omega

theorem slotFold_fst (total page : Nat) (slots : List (Nat × Nat)) :
    ∀ (ps : List Placement) (i : Nat),
      (slots.foldl (slotStep total page) (ps, i)).1 =
        ps ++ (List.zip (List.range' i (min slots.length (total - i))) slots).map
          (fun x => ⟨x.1, page, x.2.1, x.2.2⟩) := by
  induction slots with
  | nil => intro ps i; simp
  | cons rc rest ih =>
      intro ps i
      by_cases hi : i < total
      · rw [List.foldl_cons,
          show slotStep total page (ps, i) rc = (ps ++ [⟨i, page, rc.1, rc.2⟩], i + 1) from
            by simp [slotStep, hi],
          ih _ (i + 1),
          show min (rc :: rest).length (total - i) = min rest.length (total - (i + 1)) + 1 from
            by simp; omega,
          List.range'_succ]
        simp
      · rw [List.foldl_cons,
          show slotStep total page (ps, i) rc = (ps, i) from by simp [slotStep, hi],
          ih ps i]
        have h0 : total - i = 0 := by omega
        simp [h0]

theorem pageStep_snd_lt (total page start : Nat) (h : start < total) :
    start < (pageStep total page start).2 := by
  rw [pageStep_eq_slotFold, slotFold_snd total page pageSlots [] start (by omega)]
  have : pageSlots.length = 9 := rfl
  omega

/-- The `while card_index < total_cards` loop of `create_pdf`.  Returns the
placements and the number of `showPage()` calls. -/
def create_pdf_loop (total : Nat) (card_index page : Nat) : List Placement × Nat :=
  if h : card_index < total then
    if (pageStep total page card_index).2 < total then
      ((pageStep total page card_index).1 ++
          (create_pdf_loop total (pageStep total page card_index).2 (page + 1)).1,
        (create_pdf_loop total (pageStep total page card_index).2 (page + 1)).2 + 1)
    else
      ((pageStep total page card_index).1, 0)
  else ([], 0)
termination_by total - card_index
decreasing_by
  all_goals
    have := pageStep_snd_lt total page card_index h
    omega

/-- All placements drawn by `create_pdf` for `total` input cards. -/
def create_pdf_placements (total : Nat) : List Placement :=
  (create_pdf_loop total 0 0).1

/-- Number of pages in the PDF written by `create_pdf`:
one per `showPage()` call, plus the page emitted by `save()`. -/
def create_pdf_pages (total : Nat) : Nat :=
  (create_pdf_loop total 0 0).2 + 1

end MTGProxy

namespace MTGProxyGui

open MTGProxy

/-- `get_image_url` from mtg_proxy_gui.py: precedence `size`, `large`,
`normal`, `small` (with `size` defaulting to `'large'`), top level first,
else first face. -/
def get_image_url (c : CardData) (size : String := "large") : Option String :=
  match (match c.image_uris with
         | some d => firstRendition [size, "large", "normal", "small"] d
         | none => none) with
  | some u => some u
  | none =>
      match c.card_faces with
      | f :: _ =>
          match f.image_uris with
          | some d => firstRendition [size, "large", "normal", "small"] d
          | none => none
      | [] => none

/-- Python truthiness of an optional-string parameter
(`if set_code and collector_number:`). -/
def truthyStr : Option String → Bool
  | some s => !(s = "")
  | none => false

/-- The cache file name used by the GUI `download_image`: set and collector
number are folded into the key when both are truthy. -/
def cacheFilenameGui (card_name : String) (set_code collector_number : Option String) :
    String :=
  if truthyStr set_code && truthyStr collector_number then
    ⟨MTGProxy.sanitize_filename
        (card_name ++ "_" ++ set_code.getD "" ++ "_" ++ collector_number.getD "").data⟩
      ++ ".png"
  else
    ⟨MTGProxy.sanitize_filename card_name.data⟩ ++ ".png"

/-- `download_image` from mtg_proxy_gui.py. -/
def download_image (url : String) (card_name : String) (use_cache : Bool)
    (fetch : String → Option PILImage) (cache : ImageCache)
    (set_code collector_number : Option String) : DownloadResult :=
  let filename := cacheFilenameGui card_name set_code collector_number
  if use_cache && (cache.lookup filename).isSome then
    ⟨some filename, cache, false⟩
  else
    match fetch url with
    | some content => ⟨some filename, (filename, content) :: cache, true⟩
    | none => ⟨none, cache, true⟩

/-!
### `fetch_cards_thread`

The GUI fetch loop, with the network modelled as a catalog/fetch oracle and
the Tk progress callbacks dropped (they do not touch the card data).  The
loop threads the image cache and accumulates an error list (appended with
the original requested name on any per-card failure) and the flat
`card_images` sequence (`quantity` copies per resolved card).
-/

structure Catalog where
  bySet : String → String → Option CardData
  byName : String → Option CardData
  fetchImage : String → Option PILImage

abbrev Entry := String × Nat × Option String × Option String

/-- The resolution step of the loop body:
try the specific printing first (only when both set code and collector
number are truthy), fall back to fuzzy name lookup. -/
def resolveCard (cat : Catalog) (card_name : String) (sc cn : Option String) :
    Option CardData :=
  let viaSet : Option CardData :=
    if truthyStr sc && truthyStr cn then cat.bySet (sc.getD "") (cn.getD "") else none
  match viaSet with
  | some d => some d
  | none => cat.byName card_name

structure ThreadState where
  cache : ImageCache
  errors : List String
  card_images : List (String × PILImage)
deriving DecidableEq, Repr

/-- One iteration of the `for entry in card_entries` loop. -/
def fetchStep (cat : Catalog) (st : ThreadState) (e : Entry) : ThreadState :=
  let card_name := e.1
  let quantity := e.2.1
  let sc := e.2.2.1
  let cn := e.2.2.2
  match resolveCard cat card_name sc cn with
  | none => { st with errors := st.errors ++ [card_name] }
  | some d =>
      let actual_name := d.name.getD card_name
      let actual_set := match d.set with | some s => some s | none => sc
      let actual_num := match d.collector_number with | some s => some s | none => cn
      match get_image_url d "large" with
      | none => { st with errors := st.errors ++ [card_name] }
      | some url =>
          let dl := download_image url actual_name true cat.fetchImage st.cache
            actual_set actual_num
          match dl.path with
          | none => { st with cache := dl.cache, errors := st.errors ++ [card_name] }
          | some p =>
              let pdf_image :=
                resize_card_image ((dl.cache.lookup p).getD default) 300
              { cache := dl.cache,
                errors := st.errors,
                card_images :=
                  st.card_images ++ List.replicate quantity (actual_name, pdf_image) }

/-- The whole fetch loop. -/
def fetch_cards_thread (cat : Catalog) (entries : List Entry) (st : ThreadState) :
    ThreadState :=
  entries.foldl (fetchStep cat) st

end MTGProxyGui

/-!
## Theorems

### C2: grid layout of `create_pdf`
-/

namespace MTGProxy

theorem pageStep_full (total page start : Nat) (h : start + 9 ≤ total) :
    pageStep total page start =
      ((List.range 9).map (fun j => ⟨start + j, page, j / 3, j % 3⟩), start + 9) := by
  rw [pageStep_eq_slotFold]
  have hlen : pageSlots.length = 9 := rfl
  apply Prod.ext
  · rw [slotFold_fst, show min pageSlots.length (total - start) = 9 from by omega]
    simp [pageSlots, List.range_eq_range', List.range']
  · rw [slotFold_snd total page pageSlots [] start (by omega)]
    omega

theorem pageStep_last (total page start : Nat) (h1 : start < total) (h2 : total ≤ start + 9) :
    pageStep total page start =
      ((List.range (total - start)).map (fun j => ⟨start + j, page, j / 3, j % 3⟩), total) := by
  obtain ⟨n, rfl⟩ : ∃ n, total = start + n := ⟨total - start, by omega⟩
  have hn1 : 1 ≤ n := by omega
  have hn9 : n ≤ 9 := by omega
  have hlen : pageSlots.length = 9 := rfl
  rw [pageStep_eq_slotFold]
  apply Prod.ext
  · rw [slotFold_fst, show start + n - start = n from by omega,
      show min pageSlots.length n = n from by omega]
    interval_cases n <;>
      simp [pageSlots, List.range_eq_range', List.range']
  · rw [slotFold_snd (start + n) page pageSlots [] start (by omega)]
    omega

theorem create_pdf_loop_spec (n : Nat) :
    ∀ i p, 1 ≤ n →
      create_pdf_loop (i + n) i p =
        ((List.range n).map (fun j => ⟨i + j, p + j / 9, j % 9 / 3, j % 3⟩),
          (n - 1) / 9) := by
  induction n using Nat.strong_induction_on with
  | _ n ih =>
    intro i p hn
    rw [create_pdf_loop, dif_pos (by omega : i < i + n)]
    by_cases h9 : 9 ≤ n
    · rw [pageStep_full (i + n) p i (by omega)]
      by_cases h10 : 10 ≤ n
      · rw [if_pos (by omega : ((List.range 9).map
            (fun j => (⟨i + j, p, j / 3, j % 3⟩ : Placement)), i + 9).2 < i + n)]
        have hrec := ih (n - 9) (by omega) (i + 9) (p + 1) (by omega)
        rw [show i + 9 + (n - 9) = i + n from by omega] at hrec
        rw [hrec]
        refine Prod.ext ?_ ?_ <;> dsimp only
        · conv_rhs => rw [show n = 9 + (n - 9) from by omega]
          rw [List.range_add, List.map_append, List.map_map]
          congr 1 <;>
            (apply List.map_congr_left
             intro j hj
             have hjb := List.mem_range.mp hj
             try simp only [Function.comp_apply]
             try dsimp only
             rw [Placement.mk.injEq]
             omega)
        · omega
      · have hn9 : n = 9 := by omega
        subst hn9
        rw [if_neg (by omega : ¬ ((List.range 9).map
            (fun j => (⟨i + j, p, j / 3, j % 3⟩ : Placement)), i + 9).2 < i + 9)]
        refine Prod.ext ?_ ?_ <;> dsimp only
        apply List.map_congr_left
        intro j hj
        have hj9 : j < 9 := List.mem_range.mp hj
        try dsimp only
        rw [Placement.mk.injEq]
        omega
    · rw [pageStep_last (i + n) p i (by omega) (by omega),
        show i + n - i = n from by omega]
      rw [if_neg (by omega : ¬ ((List.range n).map
          (fun j => (⟨i + j, p, j / 3, j % 3⟩ : Placement)), i + n).2 < i + n)]
      refine Prod.ext ?_ ?_ <;> dsimp only
      · apply List.map_congr_left
        intro j hj
        have hjn : j < n := List.mem_range.mp hj
        try dsimp only
        rw [Placement.mk.injEq]
        omega
      · omega

/-- Helper: how many of `0, ..., N-1` land on page `p` under division by 9. -/
theorem length_filter_range_div (N p : Nat) :
    ((List.range N).filter (fun k => k / 9 = p)).length = min 9 (N - 9 * p) := by
  induction N with
  | zero => simp
  | succ N ih =>
      rw [List.range_succ, List.filter_append, List.length_append, ih]
      by_cases h : N / 9 = p
      · simp [h]; omega
      · simp [h]; omega

/-- C2: for a non-empty input sequence of `N` images, `create_pdf` places
cards in strict row-major order (the `k`-th card lands on page `k / 9`, row
`(k % 9) / 3`, column `k % 3`), the produced PDF has `⌈N / 9⌉` pages, no two
placements share a `(page, row, column)` triple, and page `p` receives
`min 9 (N - 9p)` placements (so a page is filled with 9 cards before the
next page index is used). -/
theorem C2_grid_layout (N : Nat) (hN : 1 ≤ N) :
    create_pdf_placements N =
        (List.range N).map (fun k => ⟨k, k / 9, k % 9 / 3, k % 3⟩) ∧
      create_pdf_pages N = (N + 8) / 9 ∧
      ((create_pdf_placements N).map (fun e => (e.page, e.row, e.col))).Nodup ∧
      ∀ p, ((create_pdf_placements N).filter (fun e => e.page = p)).length =
          min 9 (N - 9 * p) := by
  have hloop := create_pdf_loop_spec N 0 0 hN
  rw [Nat.zero_add] at hloop
  have hplace : create_pdf_placements N =
      (List.range N).map (fun k => ⟨k, k / 9, k % 9 / 3, k % 3⟩) := by
    rw [create_pdf_placements, hloop]
    apply List.map_congr_left
    intro j _
    try dsimp only
    rw [Placement.mk.injEq]
    omega
  refine ⟨hplace, ?_, ?_, ?_⟩
  · rw [create_pdf_pages, hloop]
    dsimp only
    omega
  · rw [hplace, List.map_map]
    apply List.Nodup.map ?_ (List.nodup_range N)
    intro a b hab
    simp only [Function.comp_apply, Prod.mk.injEq] at hab
    omega
  · intro p
    rw [hplace]
    have hfm : ∀ (l : List Nat),
        ((l.map (fun k => (⟨k, k / 9, k % 9 / 3, k % 3⟩ : Placement))).filter
            (fun e => e.page = p)).length =
          (l.filter (fun k => k / 9 = p)).length := by
      intro l
      induction l with
      | nil => rfl
      | cons a t iht =>
          simp only [List.map_cons, List.filter_cons]
          by_cases h : a / 9 = p
          · simp [h, iht]
          · simp [h, iht]
    rw [hfm, length_filter_range_div]

/-- Witness for C2: 10 cards produce 2 pages. -/
theorem C2_grid_layout_witness : create_pdf_pages 10 = 2 := by
  rw [(C2_grid_layout 10 (by decide)).2.1]

end MTGProxy

/-!
### C1: `resize_card_image` output dimensions and mode
-/

namespace MTGProxy

/-- C1: for every decodable source image (any mode, positive dimensions) and
every `dpi > 0`, `resize_card_image` returns an image of exactly
`int(2.5*dpi) × int(3.5*dpi)` pixels in mode RGB (no alpha channel; RGBA and
palette sources are composited onto an opaque white background inside the
function).  Pixel dimensions `5*dpi/2` and `7*dpi/2` (Nat floor division)
are exactly `int(2.5*dpi)` and `int(3.5*dpi)`. -/
theorem C1_resize_exact_dimensions (img : PILImage) (dpi : Nat)
    (hdpi : 1 ≤ dpi) (hw : 1 ≤ img.width) (hh : 1 ≤ img.height) :
    (resize_card_image img dpi).width = 5 * dpi / 2 ∧
      (resize_card_image img dpi).height = 7 * dpi / 2 ∧
      (resize_card_image img dpi).mode = "RGB" := by
  refine ⟨?_, ?_, ?_⟩ <;> simp only [resize_card_image]
  · omega
  · omega
  · split_ifs with h1 h2
    · rfl
    · rfl
    · simpa using h2

/-- Witness for C1 at a concrete RGBA landscape image and dpi 300. -/
theorem C1_resize_exact_dimensions_witness :
    (resize_card_image ⟨"RGBA", 100, 50⟩ 300).width = 750 ∧
      (resize_card_image ⟨"RGBA", 100, 50⟩ 300).height = 1050 ∧
      (resize_card_image ⟨"RGBA", 100, 50⟩ 300).mode = "RGB" := by
  obtain ⟨h1, h2, h3⟩ :=
    C1_resize_exact_dimensions ⟨"RGBA", 100, 50⟩ 300 (by decide) (by decide) (by decide)
  exact ⟨by rw [h1], by rw [h2], h3⟩

end MTGProxy

/-!
### C3: artwork rendition precedence
-/

namespace MTGProxy

/-- Modelled from the spec: apply a fixed precedence list over the available
renditions of the top-level record; for multi-faced cards fall back to the
first face's renditions with the same precedence; only the first face is
ever consulted. -/
def choose_artwork (keys : List String) (c : CardData) : Option String :=
  match (match c.image_uris with
         | some d => firstRendition keys d
         | none => none) with
  | some u => some u
  | none =>
      match c.card_faces with
      | f :: _ =>
          match f.image_uris with
          | some d => firstRendition keys d
          | none => none
      | [] => none

/-- Counterexample to C3: on a record offering both a `png` and a `large`
rendition, the GUI's `get_image_url` (called with its default/actual
argument `'large'`) returns the `large` URL, not the `png` one demanded by
the claimed png-first precedence (which the CLI implementation does follow). -/
theorem C3_counterexample_gui_prefers_large :
    MTGProxyGui.get_image_url
        ⟨none, none, none, some [("png", "uP"), ("large", "uL")], []⟩ "large" = some "uL" ∧
      MTGProxy.get_image_url
        ⟨none, none, none, some [("png", "uP"), ("large", "uL")], []⟩ = some "uP" ∧
      ("uL" : String) ≠ "uP" := by
  refine ⟨rfl, rfl, by decide⟩

/-- C3 (amended): each implementation applies a fixed precedence uniformly
to the top-level renditions and, failing that, to the first face's
renditions (only the first face is ever used) — but the two implementations
use different precedence lists: `png, large, normal` in the CLI and
`size, large, normal, small` (with `size = 'large'` at every call site) in
the GUI, which therefore never prefers `png`. -/
theorem C3_amended_precedence_uniform :
    (∀ c : CardData, MTGProxy.get_image_url c = choose_artwork ["png", "large", "normal"] c) ∧
      (∀ (c : CardData) (size : String),
        MTGProxyGui.get_image_url c size = choose_artwork [size, "large", "normal", "small"] c) ∧
      (∀ (c : CardData) (f : CardFace) (rest rest2 : List CardFace),
        MTGProxy.get_image_url { c with card_faces := f :: rest } =
            MTGProxy.get_image_url { c with card_faces := f :: rest2 } ∧
          MTGProxyGui.get_image_url { c with card_faces := f :: rest } "large" =
            MTGProxyGui.get_image_url { c with card_faces := f :: rest2 } "large") := by
  refine ⟨fun c => rfl, fun c size => rfl, fun c f rest rest2 => ?_⟩
  obtain ⟨nm, st, cnum, iu, cf⟩ := c
  constructor
  · cases iu with
    | none => rfl
    | some d => cases hf : firstRendition ["png", "large", "normal"] d <;> rfl
  · cases iu with
    | none => rfl
    | some d => cases hf : firstRendition ["large", "large", "normal", "small"] d <;> rfl

end MTGProxy

/-!
### C5: cache hit on second call, no caching of failures
-/

namespace MTGProxy

/-- C5: with a cold cache, a first `download_image` whose fetch succeeds
stores the bytes under the derived file name; a second call for the same
card name returns that same path with the stored bytes, performs no fetch at
all (so it cannot fail), and leaves the cache unchanged.  And whenever a
fetch fails, the failure is surfaced as `None` and nothing is stored. -/
theorem C5_cache_idempotent_no_failure_cached :
    (∀ (url1 url2 name : String) (f1 f2 : String → Option PILImage)
        (c0 : ImageCache) (b : PILImage),
      f1 url1 = some b →
      c0.lookup (cacheFilename name) = none →
      (download_image url1 name true f1 c0).path = some (cacheFilename name) ∧
        (download_image url1 name true f1 c0).cache.lookup (cacheFilename name) = some b ∧
        (download_image url2 name true f2 (download_image url1 name true f1 c0).cache).path
          = some (cacheFilename name) ∧
        (download_image url2 name true f2 (download_image url1 name true f1 c0).cache).fetched
          = false ∧
        (download_image url2 name true f2 (download_image url1 name true f1 c0).cache).cache
          = (download_image url1 name true f1 c0).cache) ∧
    (∀ (url name : String) (f : String → Option PILImage) (c0 : ImageCache),
      f url = none →
      c0.lookup (cacheFilename name) = none →
      download_image url name true f c0 = ⟨none, c0, true⟩) := by
  constructor
  · intro url1 url2 name f1 f2 c0 b h1 h0
    have hfirst : download_image url1 name true f1 c0 =
        ⟨some (cacheFilename name), (cacheFilename name, b) :: c0, true⟩ := by
      simp [download_image, h0, h1]
    have hlook : ((cacheFilename name, b) :: c0).lookup (cacheFilename name) = some b := by
      simp [List.lookup]
    refine ⟨by rw [hfirst], by rw [hfirst]; exact hlook, ?_, ?_, ?_⟩ <;>
      · rw [hfirst]
        simp [download_image, hlook]
  · intro url name f c0 h h0
    simp [download_image, h0, h]

/-- Witness for C5: a concrete two-call sequence in which the second fetch
function always fails, yet the second call does not fetch. -/
theorem C5_cache_idempotent_no_failure_cached_witness :
    (download_image "u2" "a" true (fun _ => none)
        (download_image "u1" "a" true (fun _ => some ⟨"RGB", 1, 1⟩) []).cache).fetched
      = false :=
  ((C5_cache_idempotent_no_failure_cached).1 "u1" "u2" "a"
    (fun _ => some ⟨"RGB", 1, 1⟩) (fun _ => none) [] ⟨"RGB", 1, 1⟩ rfl rfl).2.2.2.1

end MTGProxy

/-!
### C8: cache key derivation
-/

namespace MTGProxy

/-- Counterexample to C8: `sanitize_filename` is lossy (lower-casing, spaces
to underscores), so two distinct resolved names — and likewise two distinct
printing triples — can map to the same cache key. -/
theorem C8_counterexample_key_collision :
    cacheFilename "a b" = cacheFilename "a_b" ∧ ("a b" : String) ≠ "a_b" ∧
      MTGProxyGui.cacheFilenameGui "A B" (some "x") (some "1") =
        MTGProxyGui.cacheFilenameGui "a_b" (some "x") (some "1") ∧
      (("A B", "x", "1") : String × String × String) ≠ ("a_b", "x", "1") := by
  refine ⟨by decide, by decide, by decide, by decide⟩

/-- C8 (amended): key derivation is deterministic, and distinct names or
printing triples map to distinct keys only when their sanitized
serialisations (lower-cased, spaces and forbidden characters replaced by
underscores, joined by underscores) remain distinct; requests for the same
name without printing info share one key (the same one the CLI uses), and on
a forced re-fetch the most recent successful fetch wins. -/
theorem C8_amended_keys :
    (∀ n1 n2 : String, sanitize_filename n1.data ≠ sanitize_filename n2.data →
        cacheFilename n1 ≠ cacheFilename n2) ∧
      (∀ n1 s1 c1 n2 s2 c2 : String,
        sanitize_filename (n1 ++ "_" ++ s1 ++ "_" ++ c1).data ≠
            sanitize_filename (n2 ++ "_" ++ s2 ++ "_" ++ c2).data →
        s1 ≠ "" → c1 ≠ "" → s2 ≠ "" → c2 ≠ "" →
        MTGProxyGui.cacheFilenameGui n1 (some s1) (some c1) ≠
          MTGProxyGui.cacheFilenameGui n2 (some s2) (some c2)) ∧
      (∀ n : String, MTGProxyGui.cacheFilenameGui n none none = cacheFilename n) ∧
      (∀ (n url1 url2 : String) (f1 f2 : String → Option PILImage) (c0 : ImageCache)
          (b1 b2 : PILImage),
        f1 url1 = some b1 → f2 url2 = some b2 →
        ((download_image url2 n false f2
            (download_image url1 n false f1 c0).cache).cache.lookup (cacheFilename n))
          = some b2) := by
  refine ⟨?_, ?_, fun n => rfl, ?_⟩
  · intro n1 n2 h hk
    have h2 : sanitize_filename n1.data ++ ".png".data =
        sanitize_filename n2.data ++ ".png".data := by
      have h3 : (cacheFilename n1).data = (cacheFilename n2).data := by rw [hk]
      exact h3
    exact h (List.append_cancel_right h2)
  · intro n1 s1 c1 n2 s2 c2 h hs1 hc1 hs2 hc2 hk
    have e1 : MTGProxyGui.cacheFilenameGui n1 (some s1) (some c1) =
        ⟨sanitize_filename (n1 ++ "_" ++ s1 ++ "_" ++ c1).data⟩ ++ ".png" := by
      simp [MTGProxyGui.cacheFilenameGui, MTGProxyGui.truthyStr, hs1, hc1]
    have e2 : MTGProxyGui.cacheFilenameGui n2 (some s2) (some c2) =
        ⟨sanitize_filename (n2 ++ "_" ++ s2 ++ "_" ++ c2).data⟩ ++ ".png" := by
      simp [MTGProxyGui.cacheFilenameGui, MTGProxyGui.truthyStr, hs2, hc2]
    rw [e1, e2] at hk
    have h2 : sanitize_filename (n1 ++ "_" ++ s1 ++ "_" ++ c1).data ++ ".png".data =
        sanitize_filename (n2 ++ "_" ++ s2 ++ "_" ++ c2).data ++ ".png".data := by
      have h3 : ((⟨sanitize_filename (n1 ++ "_" ++ s1 ++ "_" ++ c1).data⟩ : String)
          ++ ".png").data = ((⟨sanitize_filename (n2 ++ "_" ++ s2 ++ "_" ++ c2).data⟩ : String)
          ++ ".png").data := by rw [hk]
      exact h3
    exact h (List.append_cancel_right h2)
  · intro n url1 url2 f1 f2 c0 b1 b2 h1 h2
    have hfirst : download_image url1 n false f1 c0 =
        ⟨some (cacheFilename n), (cacheFilename n, b1) :: c0, true⟩ := by
      simp [download_image, h1]
    rw [hfirst]
    simp [download_image, h2, List.lookup]

/-- Witness for C8 (amended) at concrete distinct names. -/
theorem C8_amended_keys_witness :
    cacheFilename "Lightning Bolt" ≠ cacheFilename "Sol Ring" :=
  (C8_amended_keys).1 "Lightning Bolt" "Sol Ring" (by decide)

end MTGProxy

/-!
### C4: the five-line parsing scenario (GUI parser)
-/

/-- C4: parsing the five scenario lines through the GUI decklist parser
yields exactly two card requests: `(Lightning Bolt, 4, no printing)` and
`(Sol Ring, 1, set mh3, collector 532)`; the comment line, the blank line
and the section header `Sideboard` are skipped. -/
theorem C4_five_line_scenario :
    MTGProxyGui.parse_decklist
        ["4x Lightning Bolt", "1 Sol Ring (MH3) 532", "# comment", "", "Sideboard"] =
      [("Lightning Bolt", 4, none, none), ("Sol Ring", 1, some "mh3", some "532")] := by
  rfl

/-!
### Matcher lemmas for the parser claims (C9, C10)
-/

namespace MTGProxy

theorem tryDesc_eq_some {α : Type} (f : Nat → Option α) :
    ∀ (n : Nat) (r : α), tryDesc f n = some r → ∃ i, 1 ≤ i ∧ i ≤ n ∧ f i = some r := by
  intro n
  induction n with
  | zero => intro r h; simp [tryDesc] at h
  | succ n ih =>
      intro r h
      rw [tryDesc] at h
      cases hf : f (n + 1) with
      | some v =>
          rw [hf] at h
          simp only [Option.orElse] at h
          injection h with h
          exact ⟨n + 1, by omega, by omega, by rw [hf, h]⟩
      | none =>
          rw [hf] at h
          simp only [Option.orElse] at h
          obtain ⟨i, h1, h2, h3⟩ := ih r h
          exact ⟨i, h1, by omega, h3⟩

theorem tryDesc_eq_none {α : Type} (f : Nat → Option α) :
    ∀ n, (∀ i, 1 ≤ i → i ≤ n → f i = none) → tryDesc f n = none := by
  intro n
  induction n with
  | zero => intro _; rfl
  | succ n ih =>
      intro h
      rw [tryDesc, h (n + 1) (by omega) (by omega)]
      simp only [Option.orElse]
      exact ih fun i h1 h2 => h i h1 (by omega)

theorem tryDesc_top {α : Type} (f : Nat → Option α) (n : Nat)
    (hbelow : ∀ i, 1 ≤ i → i < n → f i = none) (hn : 1 ≤ n) :
    tryDesc f n = f n := by
  cases n with
  | zero => omega
  | succ m =>
      rw [tryDesc]
      cases hf : f (m + 1) with
      | some v => simp only [Option.orElse]
      | none =>
          simp only [Option.orElse]
          exact tryDesc_eq_none f m fun i h1 h2 => hbelow i h1 (by omega)

theorem tryAsc_eq_some {α : Type} (f : Nat → Option α) :
    ∀ (fuel i : Nat) (r : α), tryAsc f i fuel = some r → ∃ j, i ≤ j ∧ f j = some r := by
  intro fuel
  induction fuel with
  | zero => intro i r h; simp [tryAsc] at h
  | succ fuel ih =>
      intro i r h
      rw [tryAsc] at h
      cases hf : f i with
      | some v =>
          rw [hf] at h
          simp only [Option.orElse] at h
          injection h with h
          exact ⟨i, Nat.le_refl i, by rw [hf, h]⟩
      | none =>
          rw [hf] at h
          simp only [Option.orElse] at h
          obtain ⟨j, h1, h2⟩ := ih (i + 1) r h
          exact ⟨j, by omega, h2⟩

/-- The capture-group numbers a pattern can record. -/
def RE.keys : RE → List Nat
  | .eps => []
  | .cls _ => []
  | .seq a b => a.keys ++ b.keys
  | .grp n a => n :: a.keys
  | .plusG _ => []
  | .plusL _ => []
  | .starG _ => []
  | .opt a => a.keys
  | .dollar => []

/-- Any successful run invokes its continuation with the incoming groups
extended only by groups named in the pattern. -/
theorem RE.run_groups : ∀ (re : RE) (s : List Char) (g : Groups)
    (k : List Char → Groups → Option Groups) (r : Groups),
    re.run s g k = some r →
    ∃ s2 h2, (∀ q ∈ h2, q.1 ∈ re.keys) ∧ k s2 (h2 ++ g) = some r := by
  intro re
  induction re with
  | eps =>
      intro s g k r hr
      exact ⟨s, [], by simp, hr⟩
  | cls p =>
      intro s g k r hr
      cases s with
      | nil => simp [RE.run] at hr
      | cons c t =>
          simp only [RE.run] at hr
          by_cases hp : p c
          · rw [if_pos hp] at hr; exact ⟨t, [], by simp, hr⟩
          · rw [if_neg hp] at hr; exact absurd hr (by simp)
  | seq a b iha ihb =>
      intro s g k r hr
      simp only [RE.run] at hr
      obtain ⟨s1, h1, hk1, hb⟩ := iha _ _ _ _ hr
      obtain ⟨s2, h2, hk2, hk⟩ := ihb _ _ _ _ hb
      refine ⟨s2, h2 ++ h1, ?_, ?_⟩
      · intro q hq
        simp only [RE.keys, List.mem_append]
        rcases List.mem_append.mp hq with hq | hq
        · exact Or.inr (hk2 q hq)
        · exact Or.inl (hk1 q hq)
      · rw [List.append_assoc]; exact hk
  | grp n a iha =>
      intro s g k r hr
      simp only [RE.run] at hr
      obtain ⟨s1, h1, hk1, hk⟩ := iha _ _ _ _ hr
      refine ⟨s1, (n, s.take (s.length - s1.length)) :: h1, ?_, ?_⟩
      · intro q hq
        simp only [RE.keys]
        rcases List.mem_cons.mp hq with rfl | hq
        · exact List.mem_cons_self _ _
        · exact List.mem_cons_of_mem _ (hk1 q hq)
      · rw [List.cons_append]; exact hk
  | plusG p =>
      intro s g k r hr
      simp only [RE.run] at hr
      obtain ⟨i, _, _, hfi⟩ := tryDesc_eq_some _ _ _ hr
      exact ⟨s.drop i, [], by simp, hfi⟩
  | plusL p =>
      intro s g k r hr
      simp only [RE.run] at hr
      obtain ⟨j, _, hfj⟩ := tryAsc_eq_some _ _ _ _ hr
      exact ⟨s.drop j, [], by simp, hfj⟩
  | starG p =>
      intro s g k r hr
      simp only [RE.run] at hr
      cases hd : tryDesc (fun i => k (s.drop i) g) (s.takeWhile p).length with
      | some v =>
          rw [hd] at hr
          simp only [Option.orElse] at hr
          injection hr with hr
          obtain ⟨i, _, _, hfi⟩ := tryDesc_eq_some _ _ _ hd
          exact ⟨s.drop i, [], by simp, by simpa [hr] using hfi⟩
      | none =>
          rw [hd] at hr
          simp only [Option.orElse] at hr
          exact ⟨s, [], by simp, hr⟩
  | opt a iha =>
      intro s g k r hr
      simp only [RE.run] at hr
      cases ha : a.run s g k with
      | some v =>
          rw [ha] at hr
          simp only [Option.orElse] at hr
          injection hr with hr
          obtain ⟨s1, h1, hk1, hk⟩ := iha _ _ _ _ ha
          refine ⟨s1, h1, ?_, by rw [hk, hr]⟩
          intro q hq
          simpa only [RE.keys] using hk1 q hq
      | none =>
          rw [ha] at hr
          simp only [Option.orElse] at hr
          exact ⟨s, [], by simp, hr⟩
  | dollar =>
      intro s g k r hr
      simp only [RE.run] at hr
      by_cases hc : s = [] ∨ s = ['\n']
      · rw [if_pos hc] at hr; exact ⟨s, [], by simp, hr⟩
      · rw [if_neg hc] at hr; exact absurd hr (by simp)

/-!
Character facts: a decimal digit is not `x`/`X`, not whitespace, and is
fixed by `Char.toLower`.
-/

theorem not_isXx_of_digit {c : Char} (h : isDigitPy c = true) : isXx c = false := by
  rw [isXx]
  have hx : ¬ c = 'x' := fun he => absurd h (by rw [he]; decide)
  have hX : ¬ c = 'X' := fun he => absurd h (by rw [he]; decide)
  simp [hx, hX]

theorem not_space_of_digit {c : Char} (h : isDigitPy c = true) : isSpacePy c = false := by
  rw [isSpacePy]
  have h1 : ¬ c = ' ' := fun he => absurd h (by rw [he]; decide)
  have h2 : ¬ c = '\t' := fun he => absurd h (by rw [he]; decide)
  have h3 : ¬ c = '\n' := fun he => absurd h (by rw [he]; decide)
  have h4 : ¬ c = '\r' := fun he => absurd h (by rw [he]; decide)
  have h5 : ¬ c = '\x0b' := fun he => absurd h (by rw [he]; decide)
  have h6 : ¬ c = '\x0c' := fun he => absurd h (by rw [he]; decide)
  simp [h1, h2, h3, h4, h5, h6]

theorem char_toNat_le_of_le {a b : Char} (h : a ≤ b) : a.toNat ≤ b.toNat := by
  rw [Char.le_def, UInt32.le_def, BitVec.le_def] at h
  exact h

theorem toLower_of_digit {c : Char} (h : isDigitPy c = true) : c.toLower = c := by
  simp only [isDigitPy, Bool.and_eq_true, decide_eq_true_eq] at h
  have h2 : c.toNat ≤ 57 := char_toNat_le_of_le h.2
  rw [Char.toLower, if_neg]
  omega

/-! List helpers about `takeWhile`, `drop` and stripping. -/

theorem take_length_takeWhile {p : Char → Bool} :
    ∀ l : List Char, l.take (l.takeWhile p).length = l.takeWhile p := by
  intro l
  induction l with
  | nil => rfl
  | cons c t ih =>
      by_cases hp : p c
      · simp [List.takeWhile_cons, hp, ih]
      · simp [List.takeWhile_cons, hp]

theorem takeWhile_append_all {p : Char → Bool} :
    ∀ ds xs : List Char, (∀ c ∈ ds, p c = true) →
      (ds ++ xs).takeWhile p = ds ++ xs.takeWhile p := by
  intro ds
  induction ds with
  | nil => intro xs _; rfl
  | cons c t ih =>
      intro xs h
      have hc := h c (List.mem_cons_self c t)
      simp [List.takeWhile_cons, hc, ih xs fun d hd => h d (List.mem_cons_of_mem c hd)]

theorem drop_append_head {p : Char → Bool} :
    ∀ (ds xs : List Char) (i : Nat), i < ds.length → (∀ c ∈ ds, p c = true) →
      ∃ c t, (ds ++ xs).drop i = c :: t ∧ p c = true := by
  intro ds
  induction ds with
  | nil => intro xs i h; simp at h
  | cons c0 t ih =>
      intro xs i hi hall
      cases i with
      | zero => exact ⟨c0, t ++ xs, rfl, hall c0 (List.mem_cons_self _ _)⟩
      | succ i =>
          have := ih xs i (by simpa using hi) fun d hd => hall d (List.mem_cons_of_mem _ hd)
          simpa using this

theorem drop_head_of_lt_takeWhile {p : Char → Bool} (l : List Char) (i : Nat)
    (hi : i < (l.takeWhile p).length) :
    ∃ c t, l.drop i = c :: t ∧ p c = true := by
  have := drop_append_head (l.takeWhile p) (l.dropWhile p) i hi
    fun c hc => List.mem_takeWhile_imp hc
  rwa [List.takeWhile_append_dropWhile] at this

theorem dropWhile_eq_self_of_none {p : Char → Bool} (l : List Char)
    (h : ∀ c ∈ l, p c = false) : l.dropWhile p = l := by
  cases l with
  | nil => rfl
  | cons c t => simp [List.dropWhile_cons, h c (List.mem_cons_self c t)]

theorem pyStrip_eq_self (l : List Char) (h : ∀ c ∈ l, isSpacePy c = false) :
    pyStrip l = l := by
  rw [pyStrip, dropWhile_eq_self_of_none l h,
    dropWhile_eq_self_of_none l.reverse fun c hc => h c (List.mem_reverse.mp hc),
    List.reverse_reverse]

theorem lookup_append_of_ne (h2 t : Groups) (hne : ∀ q ∈ h2, q.1 ≠ (1 : Nat)) :
    List.lookup 1 (h2 ++ t) = List.lookup 1 t := by
  induction h2 with
  | nil => rfl
  | cons q rest ih =>
      obtain ⟨kk, v⟩ := q
      have hk : kk ≠ 1 := hne (kk, v) (List.mem_cons_self _ _)
      simp only [List.cons_append, List.lookup]
      rw [show ((1 : Nat) == kk) = false from by simpa using Ne.symm hk]
      exact ih fun q hq => hne q (List.mem_cons_of_mem _ hq)

/-- After consuming a digit prefix that leaves another digit at the head of
the input, both card-entry patterns fail: the optional `x` cannot match a
digit and the mandatory `\s+` cannot either. -/
theorem run_after_digits_none (rest : RE) (c : Char) (t : List Char) (g : Groups)
    (k : List Char → Groups → Option Groups) (hc : isDigitPy c = true) :
    RE.run (.seq (.opt (.cls isXx)) (.seq (.plusG isSpacePy) rest)) (c :: t) g k = none := by
  simp [RE.run, not_isXx_of_digit hc, not_space_of_digit hc, Option.orElse,
    List.takeWhile_cons, tryDesc]

/-- A successful match of either card-entry pattern consumes exactly the
maximal digit prefix into group 1: shorter digit prefixes always fail
(the next character is a digit, which is neither `x` nor whitespace). -/
theorem qty_group_of_match (rest : RE) (hkeys : (1 : Nat) ∉ rest.keys)
    (s : List Char) (groups : Groups)
    (h : runMatch (qtyPrefixRE rest) s = some groups) :
    s.takeWhile isDigitPy ≠ [] ∧
      groups.lookup 1 = some (s.takeWhile isDigitPy) := by
  have hrun : runMatch (qtyPrefixRE rest) s =
      tryDesc (fun i => RE.run (.seq (.opt (.cls isXx)) (.seq (.plusG isSpacePy) rest))
          (s.drop i) [(1, s.take (s.length - (s.drop i).length))] (fun _ g => some g))
        (s.takeWhile isDigitPy).length := rfl
  rw [hrun] at h
  have hbelow : ∀ i, 1 ≤ i → i < (s.takeWhile isDigitPy).length →
      RE.run (.seq (.opt (.cls isXx)) (.seq (.plusG isSpacePy) rest))
        (s.drop i) [(1, s.take (s.length - (s.drop i).length))] (fun _ g => some g) = none := by
    intro i h1 h2
    obtain ⟨c, t, hdrop, hc⟩ := drop_head_of_lt_takeWhile s i h2
    rw [hdrop]
    exact run_after_digits_none rest c t _ _ hc
  by_cases hm0 : (s.takeWhile isDigitPy).length = 0
  · rw [hm0, tryDesc] at h
    exact absurd h (by simp)
  · rw [tryDesc_top _ _ hbelow (by omega)] at h
    have hms : (s.takeWhile isDigitPy).length ≤ s.length :=
      (List.takeWhile_sublist isDigitPy).length_le
    rw [List.length_drop, Nat.sub_sub_self hms, take_length_takeWhile] at h
    obtain ⟨s2, h2, hkq, hk0⟩ := RE.run_groups _ _ _ _ _ h
    have hg : groups = h2 ++ [(1, s.takeWhile isDigitPy)] := by
      injection hk0 with hk0
      exact hk0.symm
    refine ⟨fun hnil => by rw [hnil] at hm0; exact hm0 rfl, ?_⟩
    rw [hg, lookup_append_of_ne]
    · rfl
    · intro q hq he
      have hqk := hkq q hq
      simp only [RE.keys, List.nil_append] at hqk
      exact hkeys (he ▸ hqk)

/-- Both card-entry patterns reject a line that is one bare integer token
(digits optionally followed by a single `x`/`X`): the required whitespace is
missing at every backtracking position. -/
theorem qtyPrefix_run_none (rest : RE) (ds xs : List Char)
    (hds : ds ≠ []) (hdig : ∀ c ∈ ds, isDigitPy c = true)
    (hxs : xs = [] ∨ xs = ['x'] ∨ xs = ['X']) :
    runMatch (qtyPrefixRE rest) (ds ++ xs) = none := by
  have hrun : runMatch (qtyPrefixRE rest) (ds ++ xs) =
      tryDesc (fun i => RE.run (.seq (.opt (.cls isXx)) (.seq (.plusG isSpacePy) rest))
          ((ds ++ xs).drop i)
          [(1, (ds ++ xs).take ((ds ++ xs).length - ((ds ++ xs).drop i).length))]
          (fun _ g => some g))
        ((ds ++ xs).takeWhile isDigitPy).length := rfl
  have hxtw : xs.takeWhile isDigitPy = [] := by
    rcases hxs with rfl | rfl | rfl <;> decide
  have htw : (ds ++ xs).takeWhile isDigitPy = ds := by
    rw [takeWhile_append_all ds xs hdig, hxtw, List.append_nil]
  rw [hrun, htw]
  apply tryDesc_eq_none
  intro i h1 hi
  rcases Nat.lt_or_ge i ds.length with hlt | hge
  · obtain ⟨c, t, hdrop, hc⟩ := drop_append_head ds xs i hlt hdig
    rw [hdrop]
    exact run_after_digits_none rest c t _ _ hc
  · have hieq : i = ds.length := by omega
    subst hieq
    rw [List.drop_left]
    rcases hxs with rfl | rfl | rfl <;>
      simp [RE.run, Option.orElse, List.takeWhile_cons, tryDesc, isXx]

/-!
### C9: parser quantity invariant
-/

/-- Counterexample to C9: the line `"0 Island"` matches the quantity-prefix
pattern with count 0, so both parsers emit a request with quantity 0. -/
theorem C9_counterexample_zero_quantity :
    MTGProxy.parse_card_entry "0 Island" = some ("Island", 0) ∧
      MTGProxyGui.parse_card_entry "0 Island" = some ("Island", 0, none, none) ∧
      ¬ (1 : Nat) ≤ 0 := ⟨rfl, rfl, by decide⟩

/-- C9 (amended): every request produced by either parser has quantity ≥ 1
unless the line's leading maximal digit run is an explicit zero-valued count
(such as `"0 Island"`), in which case the quantity is that 0. -/
theorem C9_amended_quantity_positive_unless_zero_count :
    (∀ (entry n : String) (q : Nat),
      MTGProxy.parse_card_entry entry = some (n, q) →
      1 ≤ q ∨ (natOfDigits ((pyStrip entry.data).takeWhile isDigitPy) = 0 ∧
        (pyStrip entry.data).takeWhile isDigitPy ≠ [])) ∧
    (∀ (entry n : String) (q : Nat) (sc cn : Option String),
      MTGProxyGui.parse_card_entry entry = some (n, q, sc, cn) →
      1 ≤ q ∨ (natOfDigits ((pyStrip entry.data).takeWhile isDigitPy) = 0 ∧
        (pyStrip entry.data).takeWhile isDigitPy ≠ [])) := by
  constructor
  · intro entry n q h
    simp only [MTGProxy.parse_card_entry] at h
    by_cases hskip : (pyStrip entry.data = [] || (pyStrip entry.data).head? = some '#') = true
    · rw [if_pos hskip] at h; exact absurd h (by simp)
    · rw [if_neg hskip] at h
      cases hm : runMatch simpleRE (pyStrip entry.data) with
      | some g =>
          rw [hm] at h
          injection h with h
          have hq : q = natOfDigits (groupChars g 1) := by
            have := congrArg Prod.snd h; simpa using this.symm
          obtain ⟨hne, hlk⟩ := qty_group_of_match (.seq (.grp 2 (.plusG isDotPy)) .dollar)
            (by decide) _ _ hm
          have hgc : groupChars g 1 = (pyStrip entry.data).takeWhile isDigitPy := by
            rw [groupChars, hlk]; rfl
          by_cases hq0 : q = 0
          · exact Or.inr ⟨by rw [← hgc, ← hq, hq0], hne⟩
          · exact Or.inl (by omega)
      | none =>
          rw [hm] at h
          injection h with h
          have hq : q = 1 := by
            have := congrArg Prod.snd h; simpa using this.symm
          exact Or.inl (by omega)
  · intro entry n q sc cn h
    simp only [MTGProxyGui.parse_card_entry] at h
    by_cases hskip : (pyStrip entry.data = [] || (pyStrip entry.data).head? = some '#') = true
    · rw [if_pos hskip] at h; exact absurd h (by simp)
    · rw [if_neg hskip] at h
      by_cases hsec : rstripColon (pyLower (pyStrip entry.data)) ∈ MTGProxyGui.MOXFIELD_SECTIONS
      · rw [if_pos hsec] at h; exact absurd h (by simp)
      · rw [if_neg hsec] at h
        cases hm : runMatch moxRE (pyStrip entry.data) with
        | some g =>
            rw [hm] at h
            injection h with h
            have hq : q = natOfDigits (groupChars g 1) := by
              have := congrArg (fun x => x.2.1) h; simpa using this.symm
            obtain ⟨hne, hlk⟩ := qty_group_of_match
              (.seq (.grp 2 (.plusL isDotPy))
                (.seq (.plusG isSpacePy)
                  (.seq (.cls fun c => c = '(')
                    (.seq (.grp 3 (.plusG isAlnumAscii))
                      (.seq (.cls fun c => c = ')')
                        (.seq (.plusG isSpacePy)
                          (.seq (.grp 4 (.plusG isNonSpacePy))
                            (.seq (.opt foilRE) (.seq (.starG isSpacePy) .dollar)))))))))
              (by decide) _ _ hm
            have hgc : groupChars g 1 = (pyStrip entry.data).takeWhile isDigitPy := by
              rw [groupChars, hlk]; rfl
            by_cases hq0 : q = 0
            · exact Or.inr ⟨by rw [← hgc, ← hq, hq0], hne⟩
            · exact Or.inl (by omega)
        | none =>
            rw [hm] at h
            cases hm2 : runMatch simpleRE (pyStrip entry.data) with
            | some g =>
                rw [hm2] at h
                injection h with h
                have hq : q = natOfDigits (groupChars g 1) := by
                  have := congrArg (fun x => x.2.1) h; simpa using this.symm
                obtain ⟨hne, hlk⟩ := qty_group_of_match (.seq (.grp 2 (.plusG isDotPy)) .dollar)
                  (by decide) _ _ hm2
                have hgc : groupChars g 1 = (pyStrip entry.data).takeWhile isDigitPy := by
                  rw [groupChars, hlk]; rfl
                by_cases hq0 : q = 0
                · exact Or.inr ⟨by rw [← hgc, ← hq, hq0], hne⟩
                · exact Or.inl (by omega)
            | none =>
                rw [hm2] at h
                injection h with h
                have hq : q = 1 := by
                  have := congrArg (fun x => x.2.1) h; simpa using this.symm
                exact Or.inl (by omega)

/-- Witness for C9 (amended) at the line `"2 Lightning Bolt"`. -/
theorem C9_amended_quantity_positive_unless_zero_count_witness :
    1 ≤ 2 ∨ (natOfDigits ((pyStrip ("2 Lightning Bolt" : String).data).takeWhile isDigitPy) = 0 ∧
      (pyStrip ("2 Lightning Bolt" : String).data).takeWhile isDigitPy ≠ []) :=
  C9_amended_quantity_positive_unless_zero_count.1 "2 Lightning Bolt" "Lightning Bolt" 2 rfl

/-!
### C10: a line that is one bare integer token parses as a name
-/

/-- `rstrip` only removes a suffix: its result is a prefix of the input. -/
theorem rstripColon_prefix (l : List Char) : ∃ t2, l = rstripColon l ++ t2 := by
  refine ⟨(l.reverse.takeWhile fun c => c = ':').reverse, ?_⟩
  rw [rstripColon]
  conv_lhs =>
    rw [← List.reverse_reverse l,
      ← List.takeWhile_append_dropWhile (p := fun c => c = ':') (l := l.reverse)]
  rw [List.reverse_append]

/-- Every Moxfield section header starts with a letter, so no list starting
with a digit is a section header. -/
theorem cons_digit_not_section (c : Char) (t2 : List Char) (hc : isDigitPy c = true) :
    c :: t2 ∉ MTGProxyGui.MOXFIELD_SECTIONS := by
  intro hmem
  simp only [MTGProxyGui.MOXFIELD_SECTIONS, List.mem_cons, List.not_mem_nil, or_false] at hmem
  rcases hmem with h | h | h | h | h | h | h | h <;>
    · injection h with h1 _
      rw [h1] at hc
      exact absurd hc (by decide)

/-- C10: a non-skipped line that consists solely of an integer token —
digits optionally followed by one `x`/`X`, with no whitespace and no name —
is returned whole as the card name with quantity 1 and no printing info, by
both parsers: the quantity patterns require whitespace and a name after the
count, so neither matches. -/
theorem C10_bare_integer_token (entry : String) (ds xs : List Char)
    (hsplit : entry.data = ds ++ xs) (hds : ds ≠ [])
    (hdig : ∀ c ∈ ds, isDigitPy c = true)
    (hxs : xs = [] ∨ xs = ['x'] ∨ xs = ['X']) :
    MTGProxy.parse_card_entry entry = some (entry, 1) ∧
      MTGProxyGui.parse_card_entry entry = some (entry, 1, none, none) := by
  obtain ⟨c0, ds', rfl⟩ : ∃ c0 ds', ds = c0 :: ds' := by
    cases ds with
    | nil => exact absurd rfl hds
    | cons a b => exact ⟨a, b, rfl⟩
  have hc0 : isDigitPy c0 = true := hdig c0 (List.mem_cons_self _ _)
  have hnospace : ∀ c ∈ entry.data, isSpacePy c = false := by
    rw [hsplit]
    intro c hc
    rcases List.mem_append.mp hc with hc | hc
    · exact not_space_of_digit (hdig c hc)
    · rcases hxs with rfl | rfl | rfl
      · exact absurd hc (List.not_mem_nil c)
      · rcases List.mem_singleton.mp hc with rfl; decide
      · rcases List.mem_singleton.mp hc with rfl; decide
  have hstrip : pyStrip entry.data = entry.data := pyStrip_eq_self entry.data hnospace
  have hc0ne : ¬ c0 = '#' := fun he => absurd hc0 (by rw [he]; decide)
  have hcond : ¬ ((pyStrip entry.data = [] ||
      (pyStrip entry.data).head? = some '#') = true) := by
    rw [hstrip, hsplit]
    simp [hc0ne]
  have hmox : runMatch moxRE (entry.data) = none := by
    rw [hsplit]
    exact qtyPrefix_run_none _ (c0 :: ds') xs hds hdig hxs
  have hsimple : runMatch simpleRE (entry.data) = none := by
    rw [hsplit]
    exact qtyPrefix_run_none _ (c0 :: ds') xs hds hdig hxs
  have hsec : rstripColon (pyLower entry.data) ∉ MTGProxyGui.MOXFIELD_SECTIONS := by
    rw [hsplit]
    have hplow : pyLower ((c0 :: ds') ++ xs) = c0 :: pyLower (ds' ++ xs) := by
      simp [pyLower, toLower_of_digit hc0]
    rw [hplow]
    obtain ⟨t2, hpre⟩ := rstripColon_prefix (c0 :: pyLower (ds' ++ xs))
    intro hmem
    cases hr : rstripColon (c0 :: pyLower (ds' ++ xs)) with
    | nil => rw [hr] at hmem; exact absurd hmem (by decide)
    | cons d t3 =>
        rw [hr] at hmem hpre
        simp only [List.cons_append] at hpre
        injection hpre with h1 _
        rw [← h1] at hmem
        exact cons_digit_not_section c0 t3 hc0 hmem
  constructor
  · simp only [MTGProxy.parse_card_entry]
    rw [if_neg hcond, hstrip, hsimple]
  · simp only [MTGProxyGui.parse_card_entry]
    rw [if_neg hcond, hstrip, if_neg hsec, hmox, hsimple]

/-- Witness for C10 at the line `"13x"`. -/
theorem C10_bare_integer_token_witness :
    MTGProxy.parse_card_entry "13x" = some ("13x", 1) ∧
      MTGProxyGui.parse_card_entry "13x" = some ("13x", 1, none, none) :=
  C10_bare_integer_token "13x" ['1', '3'] ['x'] rfl (by decide) (by decide)
    (Or.inr (Or.inl rfl))

end MTGProxy

/-!
### C6, C7: the GUI fetch loop — resolution order, error collection,
quantity replication
-/

namespace MTGProxyGui

open MTGProxy

/-- One loop iteration only appends to the error and image accumulators. -/
theorem fetchStep_append (cat : Catalog) (e : Entry) (c : ImageCache)
    (E : List String) (I : List (String × PILImage)) :
    fetchStep cat ⟨c, E, I⟩ e =
      ⟨(fetchStep cat ⟨c, [], []⟩ e).cache,
       E ++ (fetchStep cat ⟨c, [], []⟩ e).errors,
       I ++ (fetchStep cat ⟨c, [], []⟩ e).card_images⟩ := by
  obtain ⟨nm, q, sc, cn⟩ := e
  simp only [fetchStep]
  split
  · simp
  · split
    · simp
    · split
      · simp
      · simp

/-- The loop's accumulators factor out of any starting state. -/
theorem fetch_thread_append (cat : Catalog) :
    ∀ (l : List Entry) (c : ImageCache) (E : List String)
      (I : List (String × PILImage)),
      List.foldl (fetchStep cat) ⟨c, E, I⟩ l =
        ⟨(List.foldl (fetchStep cat) ⟨c, [], []⟩ l).cache,
         E ++ (List.foldl (fetchStep cat) ⟨c, [], []⟩ l).errors,
         I ++ (List.foldl (fetchStep cat) ⟨c, [], []⟩ l).card_images⟩ := by
  intro l
  induction l with
  | nil => intro c E I; simp
  | cons e rest ih =>
      intro c E I
      rw [List.foldl_cons, List.foldl_cons, fetchStep_append cat e c E I]
      rcases hs : fetchStep cat ⟨c, [], []⟩ e with ⟨c1, E1, I1⟩
      dsimp only
      rw [ih c1 (E ++ E1) (I ++ I1), ih c1 E1 I1]
      simp [List.append_assoc]

/-- C6: the resolver queries the exact printing first whenever printing info
is present (both parts truthy), falls back to the fuzzy-name lookup when
that fails or printing is absent, and when resolution fails entirely the
loop records the original requested name in the error list and continues
with the remaining requests unchanged. -/
theorem C6_resolution_order_and_error_continuation :
    (∀ (cat : Catalog) (name : String) (sc cn : Option String) (d : CardData),
      (truthyStr sc && truthyStr cn) = true →
      cat.bySet (sc.getD "") (cn.getD "") = some d →
      resolveCard cat name sc cn = some d) ∧
    (∀ (cat : Catalog) (name : String) (sc cn : Option String),
      (truthyStr sc && truthyStr cn) = true →
      cat.bySet (sc.getD "") (cn.getD "") = none →
      resolveCard cat name sc cn = cat.byName name) ∧
    (∀ (cat : Catalog) (name : String) (sc cn : Option String),
      (truthyStr sc && truthyStr cn) = false →
      resolveCard cat name sc cn = cat.byName name) ∧
    (∀ (cat : Catalog) (c0 : ImageCache) (name : String) (q : Nat)
        (sc cn : Option String) (rest : List Entry),
      resolveCard cat name sc cn = none →
      fetch_cards_thread cat ((name, q, sc, cn) :: rest) ⟨c0, [], []⟩ =
        ⟨(fetch_cards_thread cat rest ⟨c0, [], []⟩).cache,
         name :: (fetch_cards_thread cat rest ⟨c0, [], []⟩).errors,
         (fetch_cards_thread cat rest ⟨c0, [], []⟩).card_images⟩) := by
  refine ⟨?_, ?_, ?_, ?_⟩
  · intro cat name sc cn d ht hb
    simp [resolveCard, ht, hb]
  · intro cat name sc cn ht hb
    simp [resolveCard, ht, hb]
  · intro cat name sc cn ht
    simp [resolveCard, ht]
  · intro cat c0 name q sc cn rest h
    have hstep : fetchStep cat ⟨c0, [], []⟩ (name, q, sc, cn) = ⟨c0, [name], []⟩ := by
      simp [fetchStep, h]
    simp only [fetch_cards_thread, List.foldl_cons, hstep]
    rw [fetch_thread_append cat rest c0 [name] []]
    simp

/-- Witness for C6: a catalog that knows nothing records the request under
its original name and produces no images. -/
theorem C6_resolution_order_and_error_continuation_witness :
    fetch_cards_thread ⟨fun _ _ => none, fun _ => none, fun _ => none⟩
        [("Black Lotus", 2, none, none)] ⟨[], [], []⟩ =
      ⟨[], ["Black Lotus"], []⟩ := by
  have h := C6_resolution_order_and_error_continuation.2.2.2
    ⟨fun _ _ => none, fun _ => none, fun _ => none⟩ [] "Black Lotus" 2 none none [] rfl
  simpa using h

/-- C7: a request that resolves, fetches and normalizes successfully
contributes exactly `quantity` entries to the image sequence, all the same
`(actual name, normalized image)` pair, prepended in input order before the
contribution of the remaining requests. -/
theorem C7_quantity_replication (cat : Catalog) (c0 : ImageCache) (name : String)
    (q : Nat) (sc cn : Option String) (rest : List Entry) (d : CardData)
    (url p : String)
    (hres : resolveCard cat name sc cn = some d)
    (hurl : get_image_url d "large" = some url)
    (hdl : (download_image url (d.name.getD name) true cat.fetchImage c0
        (match d.set with | some s => some s | none => sc)
        (match d.collector_number with | some s => some s | none => cn)).path = some p) :
    fetch_cards_thread cat ((name, q, sc, cn) :: rest) ⟨c0, [], []⟩ =
      (let dl := download_image url (d.name.getD name) true cat.fetchImage c0
          (match d.set with | some s => some s | none => sc)
          (match d.collector_number with | some s => some s | none => cn)
       let img := resize_card_image ((dl.cache.lookup p).getD default) 300
       let r := fetch_cards_thread cat rest ⟨dl.cache, [], []⟩
       ⟨r.cache, r.errors,
        List.replicate q (d.name.getD name, img) ++ r.card_images⟩) := by
  have hstep : fetchStep cat ⟨c0, [], []⟩ (name, q, sc, cn) =
      ⟨(download_image url (d.name.getD name) true cat.fetchImage c0
          (match d.set with | some s => some s | none => sc)
          (match d.collector_number with | some s => some s | none => cn)).cache,
       [],
       List.replicate q (d.name.getD name,
        resize_card_image
          (((download_image url (d.name.getD name) true cat.fetchImage c0
              (match d.set with | some s => some s | none => sc)
              (match d.collector_number with | some s => some s | none => cn)).cache.lookup
            p).getD default) 300)⟩ := by
    simp [fetchStep, hres, hurl, hdl]
  simp only [fetch_cards_thread, List.foldl_cons, hstep]
  rw [fetch_thread_append cat rest _ [] _]
  simp

/-- Witness for C7: quantity 3 yields exactly three identical entries. -/
theorem C7_quantity_replication_witness :
    fetch_cards_thread
        ⟨fun _ _ => none, fun _ => some ⟨some "N", none, none, some [("large", "u")], []⟩,
          fun _ => some ⟨"RGB", 100, 140⟩⟩
        [("n", 3, none, none)] ⟨[], [], []⟩ =
      ⟨[("n.png", ⟨"RGB", 100, 140⟩)], [],
        List.replicate 3 ("N", resize_card_image ⟨"RGB", 100, 140⟩ 300)⟩ :=
  (C7_quantity_replication
    ⟨fun _ _ => none, fun _ => some ⟨some "N", none, none, some [("large", "u")], []⟩,
      fun _ => some ⟨"RGB", 100, 140⟩⟩
    [] "n" 3 none none []
    ⟨some "N", none, none, some [("large", "u")], []⟩ "u" "n.png" rfl rfl rfl).trans rfl

end MTGProxyGui
